import Mathlib

/-!
Verification of the ethel frame-data pipeline core.

This development shallowly embeds the data structures and operations of the
repository and settles the specification's claims about them:

* `PCol` models `ParallelIndexArrayColumn<T>` from `src/state/data/column.rs`
  together with the `SparseSlot::next_slot_index` helper from
  `src/state/data/mod.rs`.  Rust panics (index out of bounds, `expect`,
  `Vec::swap_remove` out of range, freeing slot 0) are modelled by `Option`
  with `none` standing for the aborted computation.  Handles and indices are
  `u32` in the source; they are modelled as `Nat` (the `as u32` casts are the
  identity below 2^32 slots, and no claim concerns columns of that size).
* `StorageSection`, `Boundary`, and the producer/consumer `Cross::cross`
  operations model `src/state/cross.rs` and the section/lock types of
  `src/render/data.rs`.
* `Layout.partition` and `Layout.len` model `src/render/buffer/layout.rs`.
* `CmdQueue` models `GpuCommandQueue` from `src/render/command.rs`.
-/

namespace Ethel

/-! ## List helpers shared by the embeddings -/

/-- `Vec::swap_remove(i)`: overwrite index `i` with the last element and pop
the last element; `none` models the Rust panic when `i` is out of bounds. -/
def swapRemove {β : Type} (l : List β) (i : Nat) : Option (List β) :=
  match l.getLast? with
  | none => none
  | some lastEl => if i < l.length then some ((l.set i lastEl).dropLast) else none

theorem swapRemove_eq_some {β : Type} {l : List β} {i : Nat} {l' : List β}
    (h : swapRemove l i = some l') :
    ∃ lastEl, l.getLast? = some lastEl ∧ i < l.length ∧ l' = (l.set i lastEl).dropLast := by
  unfold swapRemove at h
  split at h
  · exact absurd h (by simp)
  · rename_i lastEl hlast
    split at h
    · rename_i hi
      exact ⟨lastEl, hlast, hi, (Option.some_inj.mp h).symm⟩
    · exact absurd h (by simp)

theorem swapRemove_length {β : Type} {l : List β} {i : Nat} {l' : List β}
    (h : swapRemove l i = some l') : l'.length = l.length - 1 := by
  obtain ⟨lastEl, -, -, rfl⟩ := swapRemove_eq_some h
  simp [List.length_dropLast]

theorem swapRemove_getElem? {β : Type} {l : List β} {i : Nat} {l' : List β}
    (h : swapRemove l i = some l') (j : Nat) :
    l'[j]? = if j < l.length - 1 then (if j = i then l[l.length - 1]? else l[j]?)
      else none := by
  obtain ⟨lastEl, hlast, hi, rfl⟩ := swapRemove_eq_some h
  rw [List.getElem?_dropLast, List.length_set]
  by_cases hj : j < l.length - 1
  · rw [if_pos hj, if_pos hj]
    by_cases hji : j = i
    · subst hji
      rw [List.getElem?_set_self (by omega), List.getElem?_eq_getElem (by omega)]
      rw [List.getLast?_eq_getElem?, List.getElem?_eq_getElem (by omega)] at hlast
      simp_all
    · rw [List.getElem?_set_ne (by omega), if_neg hji]
  · rw [if_neg hj, if_neg hj]

/-! ## ParallelIndexArrayColumn (src/state/data/column.rs lines 356-482) -/

/-- State of a `ParallelIndexArrayColumn<T>`: the indirect `indices` map, the
`contiguous` data vector, the parallel `owners` vector, and the `free` list of
recycled indirect slots.  `Vec` push/pop work at the list's end. -/
structure PCol (α : Type) where
  indices : List Nat
  contiguous : List α
  owners : List Nat
  /-- The source field is named `free`; Lean reserves that name here for the
  `Column::free` operation. -/
  freeList : List Nat
deriving Repr, DecidableEq

/-- `ParallelIndexArrayColumn::new`: one degenerate element at index 0. -/
def PCol.new {α : Type} (d : α) : PCol α :=
  { indices := [0], contiguous := [d], owners := [0], freeList := [] }

/-- `SparseSlot::next_slot_index` (src/state/data/mod.rs lines 16-30): pop a
cached index from the free list, else push an untracked `0` entry onto the
slots map and return its index. -/
def PCol.nextSlotIndex {α : Type} (c : PCol α) : Nat × PCol α :=
  match c.freeList.getLast? with
  | some cached => (cached, { c with freeList := c.freeList.dropLast })
  | none => (c.indices.length, { c with indices := c.indices ++ [0] })

/-- `ParallelIndexArrayColumn::put` (column.rs lines 474-481).  The write
`self.indices[index as usize] = slot as u32` panics if `index` is out of
bounds, modelled by `none`; `next_slot_index` guarantees in-bounds indices
for reachable states. -/
def PCol.put {α : Type} (c : PCol α) (v : α) : Option (PCol α × Nat) :=
  let p := c.nextSlotIndex
  let c1 := p.2
  let index := p.1
  let slot := c1.contiguous.length
  if index < c1.indices.length then
    some ({ c1 with
            indices := c1.indices.set index slot
            contiguous := c1.contiguous ++ [v]
            owners := c1.owners ++ [index] }, index)
  else none

/-- `ParallelIndexArrayColumn::free` (column.rs lines 452-472).  `none` models
a Rust panic: freeing slot 0, an out-of-bounds `self.indices[slot]` read, the
`expect` on `owners.last()`, an out-of-bounds write to
`self.indices[last_owner]`, or `Vec::swap_remove` out of range.  When
`indices[slot] == 0` the call is a no-op returning the unchanged state. -/
def PCol.free {α : Type} (c : PCol α) (slot : Nat) : Option (PCol α) :=
  if slot = 0 then none
  else
    match c.indices[slot]? with
    | none => none
    | some cs =>
      if cs = 0 then some c
      else
        let ind1 := c.indices.set slot 0
        match c.owners.getLast? with
        | none => none
        | some lastOwner =>
          if lastOwner < ind1.length then
            let ind2 := ind1.set lastOwner cs
            match swapRemove c.owners cs, swapRemove c.contiguous cs with
            | some ow, some co =>
              some { indices := ind2, contiguous := co, owners := ow,
                     freeList := c.freeList ++ [slot] }
            | _, _ => none
          else none

/-- An operation applied to a column: `Column::put` or `Column::free`. -/
inductive ColOp (α : Type) where
  | put (v : α)
  | free (slot : Nat)
deriving Repr, DecidableEq

/-- Run one operation; `none` models the panic of `free`/`put`. -/
def PCol.step {α : Type} (c : PCol α) : ColOp α → Option (PCol α)
  | .put v => (c.put v).map (·.1)
  | .free s => c.free s

/-- Run a sequence of operations, aborting (`none`) at the first panic. -/
def PCol.runOps {α : Type} (c : PCol α) : List (ColOp α) → Option (PCol α)
  | [] => some c
  | op :: rest => (c.step op).bind (PCol.runOps · rest)

/-- The states of a `ParallelIndexArrayColumn` reachable from `new` by any
sequence of `put`/`free` calls that does not panic. -/
inductive PCol.Reach {α : Type} (d : α) : PCol α → Prop where
  | new : PCol.Reach d (PCol.new d)
  | put {c c' : PCol α} {v : α} {h : Nat} :
      PCol.Reach d c → c.put v = some (c', h) → PCol.Reach d c'
  | free {c c' : PCol α} {s : Nat} :
      PCol.Reach d c → c.free s = some c' → PCol.Reach d c'

/-- The inductive invariant of `ParallelIndexArrayColumn` states.  Clauses:
degenerate slot 0 on both sides; round-trip from owners to indices
(`owners_rt`) and from live indices to owners (`live_rt`); free-list entries
are positive in-bounds handles whose map entry is either cleared or stale
(pointing at or beyond the dense length, offset by the entry's depth in the
free stack); and the free list holds no duplicates. -/
structure PCol.Inv {α : Type} (c : PCol α) : Prop where
  len_eq : c.contiguous.length = c.owners.length
  owners_pos : 0 < c.owners.length
  owners_zero : c.owners[0]? = some 0
  indices_zero : c.indices[0]? = some 0
  owners_rt : ∀ i h, 0 < i → c.owners[i]? = some h →
      0 < h ∧ h < c.indices.length ∧ c.indices[h]? = some i
  free_mem : ∀ p h, c.freeList[p]? = some h → 0 < h ∧ h < c.indices.length ∧
      ∀ v, c.indices[h]? = some v →
        v = 0 ∨ c.contiguous.length + c.freeList.length ≤ v + p + 1
  free_nodup : c.freeList.Nodup
  live_rt : ∀ h v, c.indices[h]? = some v → v ≠ 0 → h ∉ c.freeList →
      v < c.owners.length ∧ c.owners[v]? = some h

/-- Free-list entries have a cleared or out-of-range map entry. -/
theorem PCol.Inv.free_stale {α : Type} {c : PCol α} (hc : c.Inv) {h v : Nat}
    (hmem : h ∈ c.freeList) (hv : c.indices[h]? = some v) :
    v = 0 ∨ c.contiguous.length ≤ v := by
  obtain ⟨p, hp⟩ := List.mem_iff_getElem?.mp hmem
  rcases (hc.free_mem p h hp).2.2 v hv with h0 | hle
  · exact Or.inl h0
  · have hplt : p < c.freeList.length := (List.getElem?_eq_some_iff.mp hp).1
    omega

/-- A handle whose map entry points strictly inside the dense range is live,
hence not on the free list. -/
theorem PCol.Inv.not_free {α : Type} {c : PCol α} (hc : c.Inv) {h v : Nat}
    (hv : c.indices[h]? = some v) (hv0 : v ≠ 0) (hvL : v < c.contiguous.length) :
    h ∉ c.freeList := by
  intro hmem
  rcases hc.free_stale hmem hv with h0 | hle <;> omega

theorem PCol.inv_new {α : Type} (d : α) : (PCol.new d).Inv := by
  refine ⟨rfl, by simp [PCol.new], rfl, rfl, ?_, ?_, by simp [PCol.new], ?_⟩
  · intro i h hi hih
    rcases i with _ | i
    · omega
    · simp [PCol.new] at hih
  · intro p h hp
    simp [PCol.new] at hp
  · intro h v hh hv0 _
    rcases h with _ | h
    · simp [PCol.new] at hh
      omega
    · simp [PCol.new] at hh

theorem mem_dropLast_or_eq {β : Type} {l : List β} {a x : β}
    (hlast : l.getLast? = some a) (hx : x ∈ l) : x ∈ l.dropLast ∨ x = a := by
  obtain ⟨ys, rfl⟩ := List.getLast?_eq_some_iff.1 hlast
  rw [List.dropLast_concat]
  rcases List.mem_append.mp hx with h | h
  · exact Or.inl h
  · exact Or.inr (List.mem_singleton.mp h)

theorem not_mem_dropLast {β : Type} {l : List β} {a : β}
    (hn : l.Nodup) (hlast : l.getLast? = some a) : a ∉ l.dropLast := by
  obtain ⟨ys, rfl⟩ := List.getLast?_eq_some_iff.1 hlast
  rw [List.dropLast_concat]
  intro hmem
  rcases List.nodup_append.mp hn with ⟨-, -, hdisj⟩
  exact hdisj hmem (List.mem_singleton.mpr rfl)

/-- Invariant preservation core for `put`: the new state obtained by writing
dense slot `L = contiguous.length` under handle `idx`.  `hfl` covers the two
`next_slot_index` branches: fresh handle (empty free list) or popped handle
(the free list's last entry). -/
theorem PCol.put_inv_core {α : Type} {c : PCol α} (hc : c.Inv) (v : α)
    {idx : Nat} {ind' fl' : List Nat}
    (hidx_pos : 0 < idx)
    (hidx_lt : idx < ind'.length)
    (hlen' : c.indices.length ≤ ind'.length)
    (hind' : ∀ j, ind'[j]? = if j = idx then some c.contiguous.length
      else c.indices[j]?)
    (hstale : ∀ w, c.indices[idx]? = some w → w = 0 ∨ c.contiguous.length ≤ w)
    (hfl : (fl' = [] ∧ c.freeList = []) ∨
      (fl' = c.freeList.dropLast ∧ c.freeList.getLast? = some idx)) :
    (PCol.mk ind' (c.contiguous ++ [v]) (c.owners ++ [idx]) fl').Inv := by
  have hL : c.contiguous.length = c.owners.length := hc.len_eq
  have hLpos : 0 < c.owners.length := hc.owners_pos
  refine ⟨by simp [hc.len_eq], by simp, ?_, ?_, ?_, ?_, ?_, ?_⟩
  · show (c.owners ++ [idx])[0]? = some 0
    rw [List.getElem?_append_left hLpos]
    exact hc.owners_zero
  · show ind'[0]? = some 0
    rw [hind' 0, if_neg (by omega)]
    exact hc.indices_zero
  · -- owners_rt
    intro i h hi hih
    replace hih : (c.owners ++ [idx])[i]? = some h := hih
    rw [List.getElem?_append] at hih
    split at hih
    · rename_i hilt
      obtain ⟨hpos, hlt, hrt⟩ := hc.owners_rt i h hi hih
      have hne : h ≠ idx := by
        intro he
        subst he
        rcases hstale i hrt with h0 | hge <;> omega
      refine ⟨hpos, show h < ind'.length by omega, ?_⟩
      show ind'[h]? = some i
      rw [hind' h, if_neg hne]
      exact hrt
    · rename_i hige
      rcases eq_or_ne (i - c.owners.length) 0 with hik | hik
      · have hieq : i = c.owners.length := by omega
        rw [hik] at hih
        have hhe : h = idx := by
          have : some idx = some h := by simpa using hih
          exact (Option.some_inj.mp this).symm
        refine ⟨?_, ?_, ?_⟩
        · rw [hhe]; exact hidx_pos
        · show h < ind'.length
          rw [hhe]; exact hidx_lt
        · show ind'[h]? = some i
          rw [hhe, hind' idx, if_pos rfl, hieq, hL]
      · rw [List.getElem?_eq_none (by simp; omega)] at hih
        exact absurd hih (by simp)
  · -- free_mem
    intro p h hp
    replace hp : fl'[p]? = some h := hp
    rcases hfl with ⟨hfe, -⟩ | ⟨hfe, hlast⟩
    · rw [hfe] at hp
      simp at hp
    · have hFpos : 0 < c.freeList.length := by
        by_contra hzero
        have : c.freeList = [] := List.eq_nil_of_length_eq_zero (by omega)
        rw [this] at hlast
        simp at hlast
      rw [hfe, List.getElem?_dropLast] at hp
      split at hp
      · rename_i hplt
        obtain ⟨hpos, hlt, hold⟩ := hc.free_mem p h hp
        have hlastp : c.freeList[c.freeList.length - 1]? = some idx := by
          rw [← List.getLast?_eq_getElem?]
          exact hlast
        have hne : h ≠ idx := by
          intro he
          subst he
          have := @List.getElem?_inj Nat p (c.freeList.length - 1) c.freeList
            (by omega) hc.free_nodup (hp.trans hlastp.symm)
          omega
        refine ⟨hpos, show h < ind'.length by omega, ?_⟩
        intro w hw
        replace hw : ind'[h]? = some w := hw
        rw [hind' h, if_neg hne] at hw
        rcases hold w hw with h0 | hle
        · exact Or.inl h0
        · right
          show (c.contiguous ++ [v]).length + fl'.length ≤ w + p + 1
          rw [hfe]
          simp only [List.length_append, List.length_dropLast,
            List.length_cons, List.length_nil]
          omega
      · exact absurd hp (by simp)
  · -- free_nodup
    rcases hfl with ⟨hfe, -⟩ | ⟨hfe, -⟩
    · rw [hfe]; exact List.nodup_nil
    · rw [hfe]; exact hc.free_nodup.sublist (List.dropLast_sublist _)
  · -- live_rt
    intro h w hw hw0 hmem
    replace hw : ind'[h]? = some w := hw
    replace hmem : h ∉ fl' := hmem
    rw [hind' h] at hw
    by_cases hh : h = idx
    · rw [if_pos hh] at hw
      have hwL : w = c.contiguous.length := (Option.some_inj.mp hw).symm
      refine ⟨?_, ?_⟩
      · show w < (c.owners ++ [idx]).length
        simp [hwL, hL]
      · show (c.owners ++ [idx])[w]? = some h
        rw [hwL, hL, List.getElem?_concat_length, hh]
    · rw [if_neg hh] at hw
      have hnotfree : h ∉ c.freeList := by
        rcases hfl with ⟨hfe, hce⟩ | ⟨hfe, hlast⟩
        · rw [hce]; simp
        · intro hin
          rcases mem_dropLast_or_eq hlast hin with hin' | he
          · rw [hfe] at hmem
            exact hmem hin'
          · exact hh he
      obtain ⟨hwlt, hwo⟩ := hc.live_rt h w hw hw0 hnotfree
      refine ⟨?_, ?_⟩
      · show w < (c.owners ++ [idx]).length
        simp
        omega
      · show (c.owners ++ [idx])[w]? = some h
        rw [List.getElem?_append_left hwlt]
        exact hwo

/-- `put` never panics on an invariant state; it stores `v` at the dense tail
slot, returns a positive live handle mapping to it, and preserves the
invariant. -/
theorem PCol.put_spec {α : Type} {c : PCol α} (hc : c.Inv) (v : α) :
    ∃ c' h, c.put v = some (c', h) ∧ c'.Inv ∧ 0 < h ∧
      h ∉ c'.freeList ∧
      c'.indices[h]? = some c.contiguous.length ∧
      c'.contiguous[c.contiguous.length]? = some v ∧
      c'.owners[c.contiguous.length]? = some h ∧
      c'.contiguous.length = c.contiguous.length + 1 := by
  have hL : c.contiguous.length = c.owners.length := hc.len_eq
  have hnpos : 0 < c.indices.length := (List.getElem?_eq_some_iff.mp hc.indices_zero).1
  rcases hlast : c.freeList.getLast? with - | cached
  · -- fresh handle: the free list is empty
    have hfe : c.freeList = [] := List.getLast?_eq_none_iff.mp hlast
    have hput : c.put v = some
        ({ indices := (c.indices ++ [0]).set c.indices.length c.contiguous.length,
           contiguous := c.contiguous ++ [v],
           owners := c.owners ++ [c.indices.length],
           freeList := c.freeList }, c.indices.length) := by
      simp only [PCol.put, PCol.nextSlotIndex, hlast]
      rw [if_pos (by simp)]
    have hind' : ∀ j, ((c.indices ++ [0]).set c.indices.length c.contiguous.length)[j]? =
        if j = c.indices.length then some c.contiguous.length else c.indices[j]? := by
      intro j
      by_cases hj : j = c.indices.length
      · subst hj
        rw [if_pos rfl, List.getElem?_set_self (by simp)]
      · rw [if_neg hj, List.getElem?_set_ne (Ne.symm hj)]
        rcases Nat.lt_or_ge j c.indices.length with hlt | hge
        · exact List.getElem?_append_left hlt
        · rw [List.getElem?_eq_none (by simp; omega), List.getElem?_eq_none (by omega)]
    refine ⟨_, _, hput, ?_, hnpos, by rw [hfe]; simp, ?_, ?_, ?_, by simp⟩
    · exact PCol.put_inv_core hc v hnpos (by simp) (by simp)
        hind'
        (by intro w hw; rw [List.getElem?_eq_none (by omega)] at hw; exact absurd hw (by simp))
        (Or.inl ⟨hfe, hfe⟩)
    · exact hind' c.indices.length |>.trans (if_pos rfl)
    · exact List.getElem?_concat_length c.contiguous v
    · show (c.owners ++ [c.indices.length])[c.contiguous.length]? = some c.indices.length
      rw [hL]
      exact List.getElem?_concat_length c.owners c.indices.length
  · -- recycled handle popped from the free list
    have hFpos : 0 < c.freeList.length := by
      by_contra hzero
      have hnil : c.freeList = [] := List.eq_nil_of_length_eq_zero (by omega)
      rw [hnil] at hlast
      simp at hlast
    have hlastp : c.freeList[c.freeList.length - 1]? = some cached := by
      rw [← List.getLast?_eq_getElem?]
      exact hlast
    obtain ⟨hcpos, hclt, -⟩ := hc.free_mem (c.freeList.length - 1) cached hlastp
    have hput : c.put v = some
        ({ indices := c.indices.set cached c.contiguous.length,
           contiguous := c.contiguous ++ [v],
           owners := c.owners ++ [cached],
           freeList := c.freeList.dropLast }, cached) := by
      simp only [PCol.put, PCol.nextSlotIndex, hlast]
      rw [if_pos hclt]
    have hind' : ∀ j, (c.indices.set cached c.contiguous.length)[j]? =
        if j = cached then some c.contiguous.length else c.indices[j]? := by
      intro j
      by_cases hj : j = cached
      · subst hj
        rw [if_pos rfl, List.getElem?_set_self hclt]
      · rw [if_neg hj, List.getElem?_set_ne (Ne.symm hj)]
    refine ⟨_, _, hput, ?_, hcpos, not_mem_dropLast hc.free_nodup hlast, ?_, ?_, ?_, by simp⟩
    · exact PCol.put_inv_core hc v hcpos (by simp; omega) (by simp)
        hind'
        (fun w hw => hc.free_stale (List.mem_of_getLast?_eq_some hlast) hw)
        (Or.inr ⟨rfl, hlast⟩)
    · exact hind' cached |>.trans (if_pos rfl)
    · exact List.getElem?_concat_length c.contiguous v
    · show (c.owners ++ [cached])[c.contiguous.length]? = some cached
      rw [hL]
      exact List.getElem?_concat_length c.owners cached

/-- A handle `h` stably holds value `v`: `h` is live and `dense[map[h]] = v`
with the owner entry pointing back at `h`. -/
def PCol.Stable {α : Type} (c : PCol α) (h : Nat) (v : α) : Prop :=
  h ∉ c.freeList ∧ ∃ s, c.indices[h]? = some s ∧ s ≠ 0 ∧ s < c.owners.length ∧
    c.contiguous[s]? = some v ∧ c.owners[s]? = some h

/-- Case analysis of a successful `free`: either the no-op path
(`map[slot] == 0`) or the real removal path, with all intermediate data. -/
theorem PCol.free_cases {α : Type} {c : PCol α} {s : Nat} {c' : PCol α}
    (h : c.free s = some c') :
    (s ≠ 0 ∧ c.indices[s]? = some 0 ∧ c' = c) ∨
    (∃ cs lastOwner ow co,
      s ≠ 0 ∧
      c.indices[s]? = some cs ∧ cs ≠ 0 ∧
      c.owners.getLast? = some lastOwner ∧
      lastOwner < c.indices.length ∧
      swapRemove c.owners cs = some ow ∧
      swapRemove c.contiguous cs = some co ∧
      c' = PCol.mk ((c.indices.set s 0).set lastOwner cs) co ow
        (c.freeList ++ [s])) := by
  unfold PCol.free at h
  split at h
  · exact absurd h (by simp)
  · rename_i hs0
    split at h
    · exact absurd h (by simp)
    · rename_i cs hcs
      split at h
      · rename_i hcs0
        subst hcs0
        exact Or.inl ⟨hs0, hcs, (Option.some_inj.mp h).symm⟩
      · rename_i hcs0
        split at h
        · exact absurd h (by simp)
        · rename_i lastOwner hlo
          split at h
          · rename_i ow co how hco
            dsimp only at h
            split at h
            · rename_i hlolt
              exact Or.inr ⟨cs, lastOwner, ow, co, hs0, hcs, hcs0, hlo,
                by simpa using hlolt, how, hco, (Option.some_inj.mp h).symm⟩
            · exact absurd h (by simp)
          · exact absurd h (by simp)

/-- A successful `free` preserves the invariant, and preserves the stable
binding of every other handle. -/
theorem PCol.free_spec {α : Type} {c c' : PCol α} (hc : c.Inv) {s : Nat}
    (hf : c.free s = some c') :
    c'.Inv ∧ ∀ h v, h ≠ s → c.Stable h v → c'.Stable h v := by
  rcases PCol.free_cases hf with ⟨hs0, hcs, rfl⟩ |
    ⟨cs, lastOwner, ow, co, hs0, hcs, hcs0, hlo, hlolt, how, hcosw, rfl⟩
  · exact ⟨hc, fun h v _ hst => hst⟩
  have hLc : c.contiguous.length = c.owners.length := hc.len_eq
  have hcsL : cs < c.owners.length := by
    obtain ⟨-, -, hlt, -⟩ := swapRemove_eq_some how
    exact hlt
  have howp := swapRemove_getElem? how
  have hcop := swapRemove_getElem? hcosw
  have howlen : ow.length = c.owners.length - 1 := swapRemove_length how
  have hcolen : co.length = c.contiguous.length - 1 := swapRemove_length hcosw
  have hlop : c.owners[c.owners.length - 1]? = some lastOwner := by
    rw [← List.getLast?_eq_getElem?]
    exact hlo
  have hslt : s < c.indices.length := (List.getElem?_eq_some_iff.mp hcs).1
  have hsnf : s ∉ c.freeList := hc.not_free hcs hcs0 (by omega)
  have hsrt := hc.live_rt s cs hcs hcs0 hsnf
  have hcs1 : 0 < cs := by omega
  have hL2 : 2 ≤ c.owners.length := by omega
  have hlort := hc.owners_rt (c.owners.length - 1) lastOwner (by omega) hlop
  have hlonf : lastOwner ∉ c.freeList :=
    hc.not_free hlort.2.2 (by omega) (by omega)
  have hind2 : ∀ j, ((c.indices.set s 0).set lastOwner cs)[j]? =
      if j = lastOwner then some cs else if j = s then some 0 else c.indices[j]? := by
    intro j
    by_cases hjl : j = lastOwner
    · subst hjl
      rw [if_pos rfl, List.getElem?_set_self (by simpa using hlolt)]
    · rw [if_neg hjl, List.getElem?_set_ne (Ne.symm hjl)]
      by_cases hjs : j = s
      · subst hjs
        rw [if_pos rfl, List.getElem?_set_self hslt]
      · rw [if_neg hjs, List.getElem?_set_ne (Ne.symm hjs)]
  -- the patch target coincides with the freed handle exactly when the freed
  -- handle owned the last dense slot
  have hlos_iff : lastOwner = s ↔ cs = c.owners.length - 1 := by
    constructor
    · intro he
      have h1 := hlort.2.2
      rw [he] at h1
      exact Option.some_inj.mp (hcs.symm.trans h1)
    · intro he
      have h2 := hsrt.2
      rw [he] at h2
      exact Option.some_inj.mp (hlop.symm.trans h2)
  refine ⟨⟨?_, ?_, ?_, ?_, ?_, ?_, ?_, ?_⟩, ?_⟩
  · show co.length = ow.length
    omega
  · show 0 < ow.length
    omega
  · show ow[0]? = some 0
    rw [howp 0, if_pos (by omega), if_neg (by omega)]
    exact hc.owners_zero
  · show ((c.indices.set s 0).set lastOwner cs)[0]? = some 0
    rw [hind2 0, if_neg (by omega), if_neg (by omega)]
    exact hc.indices_zero
  · -- owners_rt
    intro i h hi hih
    replace hih : ow[i]? = some h := hih
    rw [howp i] at hih
    split at hih
    · rename_i hilt
      split at hih
      · rename_i hieq
        have hhl : lastOwner = h := Option.some_inj.mp (hlop.symm.trans hih)
        refine ⟨?_, ?_, ?_⟩
        · rw [← hhl]
          exact hlort.1
        · show h < ((c.indices.set s 0).set lastOwner cs).length
          simp only [List.length_set]
          rw [← hhl]
          exact hlort.2.1
        · show ((c.indices.set s 0).set lastOwner cs)[h]? = some i
          rw [hind2 h, if_pos hhl.symm, hieq]
      · rename_i hine
        obtain ⟨hpos, hlt, hrt⟩ := hc.owners_rt i h hi hih
        have hhl : h ≠ lastOwner := by
          intro he
          rw [he, hlort.2.2] at hrt
          have := Option.some_inj.mp hrt
          omega
        have hhs : h ≠ s := by
          intro he
          rw [he, hcs] at hrt
          have := Option.some_inj.mp hrt
          omega
        refine ⟨hpos, ?_, ?_⟩
        · show h < ((c.indices.set s 0).set lastOwner cs).length
          simp only [List.length_set]
          exact hlt
        · show ((c.indices.set s 0).set lastOwner cs)[h]? = some i
          rw [hind2 h, if_neg hhl, if_neg hhs]
          exact hrt
    · exact absurd hih (by simp)
  · -- free_mem
    intro p h hp
    replace hp : (c.freeList ++ [s])[p]? = some h := hp
    rw [List.getElem?_append] at hp
    split at hp
    · rename_i hplt
      obtain ⟨hpos, hlt, hold⟩ := hc.free_mem p h hp
      have hmem : h ∈ c.freeList := List.mem_iff_getElem?.mpr ⟨p, hp⟩
      have hhs : h ≠ s := fun he => hsnf (he ▸ hmem)
      have hhl : h ≠ lastOwner := fun he => hlonf (he ▸ hmem)
      refine ⟨hpos, ?_, ?_⟩
      · show h < ((c.indices.set s 0).set lastOwner cs).length
        simp only [List.length_set]
        exact hlt
      · intro w hw
        replace hw : ((c.indices.set s 0).set lastOwner cs)[h]? = some w := hw
        rw [hind2 h, if_neg hhl, if_neg hhs] at hw
        rcases hold w hw with h0 | hle
        · exact Or.inl h0
        · right
          show co.length + (c.freeList ++ [s]).length ≤ w + p + 1
          simp only [List.length_append, List.length_cons, List.length_nil]
          omega
    · rename_i hpge
      rcases eq_or_ne (p - c.freeList.length) 0 with hpz | hpz
      · rw [hpz] at hp
        have hhs : s = h := by simpa using hp
        have hpeq : p = c.freeList.length := by omega
        refine ⟨by omega, ?_, ?_⟩
        · show h < ((c.indices.set s 0).set lastOwner cs).length
          simp only [List.length_set]
          omega
        · intro w hw
          replace hw : ((c.indices.set s 0).set lastOwner cs)[h]? = some w := hw
          rw [hind2 h] at hw
          by_cases hsl : h = lastOwner
          · rw [if_pos hsl] at hw
            have hwcs : cs = w := Option.some_inj.mp hw
            have hcseq : cs = c.owners.length - 1 := by
              apply hlos_iff.mp
              rw [hsl] at hhs
              exact hhs.symm
            right
            show co.length + (c.freeList ++ [s]).length ≤ w + p + 1
            simp only [List.length_append, List.length_cons, List.length_nil]
            omega
          · rw [if_neg hsl, if_pos hhs.symm] at hw
            exact Or.inl (Option.some_inj.mp hw).symm
      · rw [List.getElem?_eq_none (by simp; omega)] at hp
        exact absurd hp (by simp)
  · -- free_nodup
    show (c.freeList ++ [s]).Nodup
    rw [List.nodup_append]
    refine ⟨hc.free_nodup, List.nodup_singleton s, ?_⟩
    intro a ha hb
    rw [List.mem_singleton] at hb
    exact hsnf (hb ▸ ha)
  · -- live_rt
    intro h v hv hv0 hnm
    replace hv : ((c.indices.set s 0).set lastOwner cs)[h]? = some v := hv
    replace hnm : h ∉ c.freeList ++ [s] := hnm
    have hnf : h ∉ c.freeList := fun hx => hnm (List.mem_append.mpr (Or.inl hx))
    have hhs : h ≠ s := fun hx =>
      hnm (List.mem_append.mpr (Or.inr (List.mem_singleton.mpr hx)))
    rw [hind2 h] at hv
    by_cases hhl : h = lastOwner
    · rw [if_pos hhl] at hv
      have hvcs : cs = v := Option.some_inj.mp hv
      have hcsne : cs ≠ c.owners.length - 1 := by
        intro he
        exact hhs (hhl.trans (hlos_iff.mpr he))
      refine ⟨?_, ?_⟩
      · show v < ow.length
        omega
      · show ow[v]? = some h
        rw [← hvcs, howp cs, if_pos (by omega), if_pos rfl, hlop, hhl]
    · rw [if_neg hhl, if_neg hhs] at hv
      obtain ⟨hvlt, hvo⟩ := hc.live_rt h v hv hv0 hnf
      have hvne1 : v ≠ c.owners.length - 1 := by
        intro he
        rw [he] at hvo
        exact hhl (Option.some_inj.mp (hvo.symm.trans hlop))
      have hvnecs : v ≠ cs := by
        intro he
        rw [he] at hvo
        exact hhs (Option.some_inj.mp (hsrt.2.symm.trans hvo)).symm
      refine ⟨?_, ?_⟩
      · show v < ow.length
        omega
      · show ow[v]? = some h
        rw [howp v, if_pos (by omega), if_neg hvnecs]
        exact hvo
  · -- stability of other handles
    intro h v hhs hst
    obtain ⟨hnf, t, hti, ht0, htL, htc, hto⟩ := hst
    refine ⟨?_, ?_⟩
    · show h ∉ c.freeList ++ [s]
      intro hx
      rcases List.mem_append.mp hx with hx | hx
      · exact hnf hx
      · exact hhs (List.mem_singleton.mp hx)
    · by_cases hhl : h = lastOwner
      · -- h owned the last dense slot; its element migrates to dense slot cs
        have htl : t = c.owners.length - 1 := by
          rw [hhl] at hti
          exact Option.some_inj.mp (hti.symm.trans hlort.2.2)
        have hcsne : cs ≠ c.owners.length - 1 := by
          intro he
          exact hhs (hhl.trans (hlos_iff.mpr he))
        refine ⟨cs, ?_, by omega, ?_, ?_, ?_⟩
        · show ((c.indices.set s 0).set lastOwner cs)[h]? = some cs
          rw [hind2 h, if_pos hhl]
        · show cs < ow.length
          omega
        · show co[cs]? = some v
          rw [hcop cs, if_pos (by omega), if_pos rfl,
            show c.contiguous.length - 1 = t by omega]
          exact htc
        · show ow[cs]? = some h
          rw [howp cs, if_pos (by omega), if_pos rfl, hlop, hhl]
      · have htne1 : t ≠ c.owners.length - 1 := by
          intro he
          rw [he] at hto
          exact hhl (Option.some_inj.mp (hto.symm.trans hlop))
        have htnecs : t ≠ cs := by
          intro he
          rw [he] at hto
          exact hhs (Option.some_inj.mp (hsrt.2.symm.trans hto)).symm
        refine ⟨t, ?_, ht0, ?_, ?_, ?_⟩
        · show ((c.indices.set s 0).set lastOwner cs)[h]? = some t
          rw [hind2 h, if_neg hhl, if_neg hhs]
          exact hti
        · show t < ow.length
          omega
        · show co[t]? = some v
          rw [hcop t, if_pos (by omega), if_neg htnecs]
          exact htc
        · show ow[t]? = some h
          rw [howp t, if_pos (by omega), if_neg htnecs]
          exact hto

/-- Case analysis of a successful `put`: fresh handle or recycled handle. -/
theorem PCol.put_cases {α : Type} {c c' : PCol α} {w : α} {hl : Nat}
    (hp : c.put w = some (c', hl)) :
    (c.freeList.getLast? = none ∧ hl = c.indices.length ∧
      c' = PCol.mk ((c.indices ++ [0]).set c.indices.length c.contiguous.length)
        (c.contiguous ++ [w]) (c.owners ++ [hl]) c.freeList) ∨
    (c.freeList.getLast? = some hl ∧ hl < c.indices.length ∧
      c' = PCol.mk (c.indices.set hl c.contiguous.length)
        (c.contiguous ++ [w]) (c.owners ++ [hl]) c.freeList.dropLast) := by
  unfold PCol.put PCol.nextSlotIndex at hp
  split at hp
  · rename_i cached hlast
    dsimp only at hp
    split at hp
    · rename_i hlt
      have := Option.some_inj.mp hp
      injection this with h1 h2
      subst h2
      exact Or.inr ⟨hlast, hlt, h1.symm⟩
    · exact absurd hp (by simp)
  · rename_i hlast
    dsimp only at hp
    split at hp
    · rename_i hlt
      have := Option.some_inj.mp hp
      injection this with h1 h2
      subst h2
      exact Or.inl ⟨hlast, rfl, h1.symm⟩
    · rename_i hlt
      exact absurd hp (by simp)

/-- A successful `put` of another value preserves the stable binding of every
stable handle. -/
theorem PCol.put_stable {α : Type} {c c' : PCol α} {hh hl : Nat} {v w : α}
    (hp : c.put w = some (c', hl)) (hst : c.Stable hh v) : c'.Stable hh v := by
  obtain ⟨hnf, t, hti, ht0, htL, htc, hto⟩ := hst
  have hhlt : hh < c.indices.length := (List.getElem?_eq_some_iff.mp hti).1
  have htc' : t < c.contiguous.length := (List.getElem?_eq_some_iff.mp htc).1
  rcases PCol.put_cases hp with ⟨hlast, hleq, rfl⟩ | ⟨hlast, hllt, rfl⟩
  · refine ⟨hnf, t, ?_, ht0, by simp; omega, ?_, ?_⟩
    · show ((c.indices ++ [0]).set c.indices.length c.contiguous.length)[hh]? = some t
      rw [List.getElem?_set_ne (by omega), List.getElem?_append_left hhlt]
      exact hti
    · show (c.contiguous ++ [w])[t]? = some v
      rw [List.getElem?_append_left htc']
      exact htc
    · show (c.owners ++ [hl])[t]? = some hh
      rw [List.getElem?_append_left htL]
      exact hto
  · have hne : hl ≠ hh := by
      intro he
      exact hnf (he ▸ List.mem_of_getLast?_eq_some hlast)
    refine ⟨?_, t, ?_, ht0, by simp; omega, ?_, ?_⟩
    · show hh ∉ c.freeList.dropLast
      intro hx
      exact hnf ((List.dropLast_sublist c.freeList).subset hx)
    · show (c.indices.set hl c.contiguous.length)[hh]? = some t
      rw [List.getElem?_set_ne hne]
      exact hti
    · show (c.contiguous ++ [w])[t]? = some v
      rw [List.getElem?_append_left htc']
      exact htc
    · show (c.owners ++ [hl])[t]? = some hh
      rw [List.getElem?_append_left htL]
      exact hto

/-- A successful `put` preserves the invariant. -/
theorem PCol.put_inv {α : Type} {c c' : PCol α} {w : α} {hl : Nat}
    (hc : c.Inv) (hp : c.put w = some (c', hl)) : c'.Inv := by
  obtain ⟨c2, h2, hp2, hinv, -⟩ := PCol.put_spec hc w
  have := Option.some_inj.mp (hp2.symm.trans hp)
  injection this with h1 h2
  subst h1
  exact hinv

/-- One `Column` operation preserves the invariant and the stable bindings of
handles it does not free. -/
theorem PCol.step_spec {α : Type} {c c1 : PCol α} {op : ColOp α}
    (hc : c.Inv) (hs : c.step op = some c1) :
    c1.Inv ∧ ∀ h v, op ≠ ColOp.free h → c.Stable h v → c1.Stable h v := by
  cases op with
  | put w =>
    simp only [PCol.step, Option.map_eq_some'] at hs
    obtain ⟨⟨c2, h2⟩, hp, rfl⟩ := hs
    exact ⟨PCol.put_inv hc hp, fun h v _ hst => PCol.put_stable hp hst⟩
  | free s =>
    simp only [PCol.step] at hs
    refine ⟨(PCol.free_spec hc hs).1, fun h v hne hst => ?_⟩
    refine (PCol.free_spec hc hs).2 h v ?_ hst
    intro he
    exact hne (by rw [he])

/-- Running any non-panicking operation sequence preserves the invariant and
the stable bindings of handles it never frees. -/
theorem PCol.runOps_spec {α : Type} {c c' : PCol α} {ops : List (ColOp α)}
    (hc : c.Inv) (hrun : c.runOps ops = some c') :
    c'.Inv ∧ ∀ h v, (∀ op ∈ ops, op ≠ ColOp.free h) → c.Stable h v →
      c'.Stable h v := by
  induction ops generalizing c with
  | nil =>
    simp only [PCol.runOps] at hrun
    obtain rfl := Option.some_inj.mp hrun
    exact ⟨hc, fun _ _ _ hst => hst⟩
  | cons op rest ih =>
    simp only [PCol.runOps, Option.bind_eq_some] at hrun
    obtain ⟨c1, hstep, hrest⟩ := hrun
    obtain ⟨hinv1, hpres1⟩ := PCol.step_spec hc hstep
    obtain ⟨hinv2, hpres2⟩ := ih hinv1 hrest
    refine ⟨hinv2, fun h v hnf hst => ?_⟩
    refine hpres2 h v (fun o ho => hnf o (List.mem_cons_of_mem op ho)) ?_
    exact hpres1 h v (hnf op (List.mem_cons_self op rest)) hst

/-- Every reachable column state satisfies the invariant. -/
theorem PCol.inv_reach {α : Type} {d : α} {c : PCol α}
    (hr : PCol.Reach d c) : c.Inv := by
  induction hr with
  | new => exact PCol.inv_new d
  | put hr hp ih => exact PCol.put_inv ih hp
  | free hr hf ih => exact (PCol.free_spec ih hf).1

/-- C1 (code bug): the claim says that after `free(h)` on a handle with
`map[h] != 0` the map entry of `h` is cleared and the owner patch is skipped
when the freed slot is the last dense slot, so that the free list always holds
exactly the positive handles with `map[h] == 0`.  The code patches
unconditionally: on the failing input (a fresh column, `put(5)` returning
handle 1, then `free(1)` where `map[1]` is the last dense slot) the patch
target `owners.last()` is handle 1 itself, so `map[1]` is re-set to the stale
slot 1 while 1 is pushed onto the free list — `1 ∈ free` but `map[1] = 1 ≠ 0`. -/
theorem C1_free_list_containment_bug :
    ((PCol.new (0 : Nat)).put 5).bind (fun p => p.1.free 1) =
      some (PCol.mk [0, 1] [0] [0] [1]) ∧
    1 ∈ (PCol.mk [0, 1] ([0] : List Nat) [0] [1]).freeList ∧
    (PCol.mk [0, 1] ([0] : List Nat) [0] [1]).indices[1]? = some 1 := by
  exact ⟨by decide, by decide, by decide⟩

/-- C2 (code bug): the claim says `free` is idempotent — a second `free(h)`
neither panics nor changes the state — in particular when `h` owned the last
dense slot at the first `free`.  On that very input the first `free(1)` leaves
the stale entry `map[1] = 1` (see C1), so the second `free(1)` does not take
the `map[h] == 0` no-op path: it reaches `owners.swap_remove(1)` on a
one-element owners vector and panics (modelled as `none`). -/
theorem C2_double_free_bug :
    ((PCol.new (0 : Nat)).put 5).bind (fun p => p.1.free 1) =
      some (PCol.mk [0, 1] [0] [0] [1]) ∧
    (PCol.mk [0, 1] ([0] : List Nat) [0] [1]).free 1 = none := by
  exact ⟨by decide, by decide⟩

/-- C3 (confirmed): in every reachable column state the round-trip invariant
holds — every handle `h` outside the free list with `map[h] ≠ 0` satisfies
`owner[map[h]] = h` (with `map[h]` in dense range), and every dense index
`i ∈ 1..dense.len()` satisfies `map[owner[i]] = i`. -/
theorem C3_round_trip {α : Type} {d : α} {c : PCol α} (hr : PCol.Reach d c) :
    (∀ h v, c.indices[h]? = some v → v ≠ 0 → h ∉ c.freeList →
      v < c.owners.length ∧ c.owners[v]? = some h) ∧
    (∀ i, 0 < i → i < c.contiguous.length →
      ∃ h, c.owners[i]? = some h ∧ c.indices[h]? = some i) := by
  have hc := PCol.inv_reach hr
  refine ⟨fun h v hv h0 hnf => hc.live_rt h v hv h0 hnf, fun i hi hilt => ?_⟩
  have hlt : i < c.owners.length := by
    have := hc.len_eq
    omega
  refine ⟨c.owners[i], List.getElem?_eq_getElem hlt, ?_⟩
  exact (hc.owners_rt i c.owners[i] hi (List.getElem?_eq_getElem hlt)).2.2

/-- Witness for C3 at the concrete reachable state obtained by
`put 5; put 7; free 1` from a fresh column. -/
theorem C3_round_trip_witness :
    (∀ h v, (PCol.mk [0, 0, 1] ([0, 7] : List Nat) [0, 2] [1]).indices[h]? = some v →
      v ≠ 0 → h ∉ (PCol.mk [0, 0, 1] ([0, 7] : List Nat) [0, 2] [1]).freeList →
      v < (PCol.mk [0, 0, 1] ([0, 7] : List Nat) [0, 2] [1]).owners.length ∧
      (PCol.mk [0, 0, 1] ([0, 7] : List Nat) [0, 2] [1]).owners[v]? = some h) ∧
    (∀ i, 0 < i → i < (PCol.mk [0, 0, 1] ([0, 7] : List Nat) [0, 2] [1]).contiguous.length →
      ∃ h, (PCol.mk [0, 0, 1] ([0, 7] : List Nat) [0, 2] [1]).owners[i]? = some h ∧
        (PCol.mk [0, 0, 1] ([0, 7] : List Nat) [0, 2] [1]).indices[h]? = some i) :=
 by
  have h1 : (PCol.new (0 : Nat)).put 5 =
      some (PCol.mk [0, 1] [0, 5] [0, 1] [], 1) := by decide
  have h2 : (PCol.mk [0, 1] ([0, 5] : List Nat) [0, 1] []).put 7 =
      some (PCol.mk [0, 1, 2] [0, 5, 7] [0, 1, 2] [], 2) := by decide
  have h3 : (PCol.mk [0, 1, 2] ([0, 5, 7] : List Nat) [0, 1, 2] []).free 1 =
      some (PCol.mk [0, 0, 1] [0, 7] [0, 2] [1]) := by decide
  exact C3_round_trip (PCol.Reach.free
    (PCol.Reach.put (PCol.Reach.put PCol.Reach.new h1) h2) h3)

/-- C4 (confirmed): for any reachable state, a value stored by `put` is found
unchanged at `dense[map[h]]` after any further non-panicking sequence of
`put`/`free` operations that never frees `h`. -/
theorem C4_handle_stability {α : Type} {d : α} {c c' c'' : PCol α} {v : α}
    {h : Nat} {ops : List (ColOp α)}
    (hr : PCol.Reach d c)
    (hput : c.put v = some (c', h))
    (hrun : c'.runOps ops = some c'')
    (hnofree : ∀ op ∈ ops, op ≠ ColOp.free h) :
    ∃ s, c''.indices[h]? = some s ∧ c''.contiguous[s]? = some v := by
  have hc := PCol.inv_reach hr
  obtain ⟨c2, h2, hp2, hinv, hpos, hnf, hidx, hval, hown, hlen⟩ := PCol.put_spec hc v
  rw [hput] at hp2
  have he := Option.some_inj.mp hp2
  injection he with he1 he2
  subst he1
  subst he2
  have hLpos : 0 < c.contiguous.length := by
    have h1 := hc.len_eq
    have h2 := hc.owners_pos
    omega
  have hsltO : c.contiguous.length < c'.owners.length :=
    (List.getElem?_eq_some_iff.mp hown).1
  have hst : c'.Stable h v :=
    ⟨hnf, c.contiguous.length, hidx, by omega, hsltO, hval, hown⟩
  obtain ⟨-, hpres⟩ := PCol.runOps_spec hinv hrun
  obtain ⟨-, s, hs1, -, -, hs3, -⟩ := hpres h v hnofree hst
  exact ⟨s, hs1, hs3⟩

/-- Witness for C4: insert 5, then run `put 7; free 2; put 9` (never freeing
handle 1); handle 1 still dereferences to 5. -/
theorem C4_handle_stability_witness :
    ∃ s, (PCol.mk [0, 1, 2] ([0, 5, 9] : List Nat) [0, 1, 2] []).indices[1]? = some s ∧
      (PCol.mk [0, 1, 2] ([0, 5, 9] : List Nat) [0, 1, 2] []).contiguous[s]? = some 5 :=
 by
  have h1 : (PCol.new (0 : Nat)).put 5 =
      some (PCol.mk [0, 1] [0, 5] [0, 1] [], 1) := by decide
  have h2 : (PCol.mk [0, 1] ([0, 5] : List Nat) [0, 1] []).runOps
      [ColOp.put 7, ColOp.free 2, ColOp.put 9] =
      some (PCol.mk [0, 1, 2] [0, 5, 9] [0, 1, 2] []) := by decide
  exact C4_handle_stability PCol.Reach.new h1 h2 (by decide)

/-! ## StorageSection, SyncBarrier, SyncState (src/render/data.rs lines
935-1075) and Cross/Boundary (src/state/cross.rs) -/

/-- `StorageSection`: the three rotating buffer sections. -/
inductive StorageSection where
  | Front
  | Back
  | Spare
deriving Repr, DecidableEq

/-- The `#[repr(u8)]` discriminants: `Front = 0b0000_0001`,
`Back = 0b0000_1000`, `Spare = 0b0100_0000`. -/
def StorageSection.toByte : StorageSection → Nat
  | .Front => 1
  | .Back => 8
  | .Spare => 64

/-- `StorageSection::from_byte`; `none` models the panic on an invalid byte. -/
def StorageSection.fromByte (byte : Nat) : Option StorageSection :=
  if byte = 1 then some .Front
  else if byte = 8 then some .Back
  else if byte = 64 then some .Spare
  else none

/-- `StorageSection::next`: Front→Back→Spare→Front. -/
def StorageSection.next : StorageSection → StorageSection
  | .Front => .Back
  | .Back => .Spare
  | .Spare => .Front

theorem fromByte_toByte (s : StorageSection) :
    StorageSection.fromByte s.toByte = some s := by
  cases s <;> rfl

/-- `SyncState::has_lock`: acquire load of the lock byte and bit test. -/
def SyncState.hasLock (locks : Nat) (s : StorageSection) : Bool :=
  locks &&& s.toByte == s.toByte

/-- The shared `Boundary` cell as seen through its atomics: the
`working_section` byte and the `sync_cache` lock byte.  The `storage` field
carries no state relevant to the claims and is omitted. -/
structure BoundaryState where
  workingSection : Nat
  syncCache : Nat
deriving Repr, DecidableEq

/-- `Boundary::new`: `working_section = Spare as u8`, `sync_cache = 0`. -/
def BoundaryState.new : BoundaryState :=
  { workingSection := StorageSection.Spare.toByte, syncCache := 0 }

/-- `Boundary::advance_section`: `fetch_update` replacing the byte with
`from_byte(byte).next() as u8`; `none` models the `from_byte` panic. -/
def BoundaryState.advanceSection (b : BoundaryState) : Option BoundaryState :=
  (StorageSection.fromByte b.workingSection).map
    (fun cur => { b with workingSection := cur.next.toByte })

/-- `Cross<Producer, Storage>::cross` (cross.rs lines 135-144).  Returns the
new boundary state together with the list of section arguments passed to the
caller's `op` (empty when the lock check aborts the frame). -/
def producerCross (b : BoundaryState) : Option (BoundaryState × List StorageSection) := do
  let cur ← StorageSection.fromByte b.workingSection
  let sec := cur.next
  if SyncState.hasLock b.syncCache sec then
    some (b, [])
  else do
    let b' ← b.advanceSection
    some (b', [sec])

/-- `SyncBarrier`: three per-section fence slots.  A fence is modelled as
`some signalled`, where `signalled` is the oracle outcome of the non-blocking
`ClientWaitSync` poll (`CONDITION_SATISFIED`/`ALREADY_SIGNALED`). -/
structure SyncBarrier where
  fence0 : Option Bool
  fence1 : Option Bool
  fence2 : Option Bool
deriving Repr, DecidableEq

/-- One slot of `SyncBarrier::fetch`: a signalled fence is deleted and its
slot cleared; an unsignalled fence is kept and its section bit raised. -/
def fetchSlot (fence : Option Bool) (bit : Nat) : Option Bool × Nat :=
  match fence with
  | none => (none, 0)
  | some signalled => if signalled then (none, 0) else (some signalled, bit)

/-- `SyncBarrier::fetch` (render/data.rs lines 1000-1018): poll all three
fences and store the accumulated lock bits into the `SyncState` (returned as
the second component; the caller overwrites the cache with it). -/
def SyncBarrier.fetch (bar : SyncBarrier) : SyncBarrier × Nat :=
  let s0 := fetchSlot bar.fence0 StorageSection.Front.toByte
  let s1 := fetchSlot bar.fence1 StorageSection.Back.toByte
  let s2 := fetchSlot bar.fence2 StorageSection.Spare.toByte
  (⟨s0.1, s1.1, s2.1⟩, s0.2 ||| s1.2 ||| s2.2)

/-- Observable events of a consumer crossing, in order. -/
inductive CrossEvent where
  | fetched (bits : Nat)
  | opCalled (sec : StorageSection)
deriving Repr, DecidableEq

/-- `Cross<Consumer, Storage>::cross` (cross.rs lines 113-121): read the
current section, fetch the barrier into the sync cache, run `op` on the
current section, fetch again.  Returns the new boundary state, the new
barrier, and the ordered event log. -/
def consumerCross (b : BoundaryState) (bar : SyncBarrier) :
    Option (BoundaryState × SyncBarrier × List CrossEvent) := do
  let sec ← StorageSection.fromByte b.workingSection
  let f1 := bar.fetch
  let f2 := f1.1.fetch
  some ({ b with syncCache := f2.2 }, f2.1,
    [CrossEvent.fetched f1.2, CrossEvent.opCalled sec, CrossEvent.fetched f2.2])

/-- C5 (confirmed): a successful `Producer.cross` (lock check passes, `op`
runs) advances `current_section` by exactly one `next` step and hands `op`
exactly `next(current)`; the rotation is Spare→Front→Back→Spare and a fresh
`Boundary` starts at Spare, so successive successful crossings follow that
cycle without skipping a section. -/
theorem C5_section_rotation (b : BoundaryState) (cur : StorageSection)
    (hb : b.workingSection = cur.toByte)
    (hlock : SyncState.hasLock b.syncCache cur.next = false) :
    producerCross b =
      some ({ b with workingSection := cur.next.toByte }, [cur.next]) ∧
    StorageSection.Spare.next = StorageSection.Front ∧
    StorageSection.Front.next = StorageSection.Back ∧
    StorageSection.Back.next = StorageSection.Spare ∧
    BoundaryState.new.workingSection = StorageSection.Spare.toByte := by
  refine ⟨?_, rfl, rfl, rfl, rfl⟩
  rw [producerCross, hb, fromByte_toByte]
  simp [hlock, BoundaryState.advanceSection, hb, fromByte_toByte]

/-- Witness for C5 at a fresh boundary (current = Spare, no locks): the
producer writes Front and the section advances to Front. -/
theorem C5_section_rotation_witness :
    producerCross BoundaryState.new =
      some ({ BoundaryState.new with
              workingSection := StorageSection.Spare.next.toByte },
        [StorageSection.Spare.next]) ∧
    StorageSection.Spare.next = StorageSection.Front ∧
    StorageSection.Front.next = StorageSection.Back ∧
    StorageSection.Back.next = StorageSection.Spare ∧
    BoundaryState.new.workingSection = StorageSection.Spare.toByte :=
  C5_section_rotation BoundaryState.new StorageSection.Spare rfl (by decide)

/-- C6 (confirmed): if `sync_cache.has_lock(next(current))` holds when
`Producer.cross` is called, `op` is not invoked and `current_section` is
unchanged (the frame is dropped); otherwise `op` is invoked exactly once on
`next(current)` and the section is then advanced. -/
theorem C6_backpressure (b : BoundaryState) (cur : StorageSection)
    (hb : b.workingSection = cur.toByte) :
    (SyncState.hasLock b.syncCache cur.next = true →
      producerCross b = some (b, [])) ∧
    (SyncState.hasLock b.syncCache cur.next = false →
      producerCross b =
        some ({ b with workingSection := cur.next.toByte }, [cur.next])) := by
  constructor
  · intro hlock
    rw [producerCross, hb, fromByte_toByte]
    simp [hlock]
  · intro hlock
    rw [producerCross, hb, fromByte_toByte]
    simp [hlock, BoundaryState.advanceSection, hb, fromByte_toByte]

/-- Witness for C6: with the Front bit locked and current = Spare the frame
is dropped; with no locks it proceeds. -/
theorem C6_backpressure_witness :
    (SyncState.hasLock (BoundaryState.mk StorageSection.Spare.toByte 1).syncCache
        StorageSection.Spare.next = true →
      producerCross (BoundaryState.mk StorageSection.Spare.toByte 1) =
        some (BoundaryState.mk StorageSection.Spare.toByte 1, [])) ∧
    (SyncState.hasLock (BoundaryState.mk StorageSection.Spare.toByte 1).syncCache
        StorageSection.Spare.next = false →
      producerCross (BoundaryState.mk StorageSection.Spare.toByte 1) =
        some ({ BoundaryState.mk StorageSection.Spare.toByte 1 with
                workingSection := StorageSection.Spare.next.toByte },
          [StorageSection.Spare.next])) :=
  C6_backpressure (BoundaryState.mk StorageSection.Spare.toByte 1)
    StorageSection.Spare rfl

/-- C7 (confirmed): every `Consumer.cross` invokes `op` exactly once with the
section read from `current_section` at entry, performs a barrier fetch into
the sync cache both before and after `op`, and leaves `current_section`
unchanged; the consumer never advances the section and the final lock word is
exactly the fence-derived fetch result (no lock bit is taken for the section
being read). -/
theorem C7_consumer_crossing (b : BoundaryState) (bar : SyncBarrier)
    (cur : StorageSection) (hb : b.workingSection = cur.toByte) :
    consumerCross b bar =
      some ({ b with syncCache := (bar.fetch.1.fetch).2 }, bar.fetch.1.fetch.1,
        [CrossEvent.fetched bar.fetch.2, CrossEvent.opCalled cur,
         CrossEvent.fetched (bar.fetch.1.fetch).2]) ∧
    ({ b with syncCache := (bar.fetch.1.fetch).2 } : BoundaryState).workingSection
      = b.workingSection := by
  refine ⟨?_, rfl⟩
  rw [consumerCross, hb, fromByte_toByte]
  rfl

/-- Witness for C7: current = Spare, one signalled fence on Front and one
unsignalled fence on Back; `op` runs once on Spare, the Front fence is
deleted, and the cache ends as the Back lock bit. -/
theorem C7_consumer_crossing_witness :
    consumerCross (BoundaryState.mk StorageSection.Spare.toByte 0)
        (SyncBarrier.mk (some true) (some false) none) =
      some ({ BoundaryState.mk StorageSection.Spare.toByte 0 with
              syncCache := ((SyncBarrier.mk (some true) (some false)
                none).fetch.1.fetch).2 },
        (SyncBarrier.mk (some true) (some false) none).fetch.1.fetch.1,
        [CrossEvent.fetched (SyncBarrier.mk (some true) (some false) none).fetch.2,
         CrossEvent.opCalled StorageSection.Spare,
         CrossEvent.fetched ((SyncBarrier.mk (some true) (some false)
           none).fetch.1.fetch).2]) ∧
    ({ BoundaryState.mk StorageSection.Spare.toByte 0 with
        syncCache := ((SyncBarrier.mk (some true) (some false)
          none).fetch.1.fetch).2 } : BoundaryState).workingSection
      = (BoundaryState.mk StorageSection.Spare.toByte 0).workingSection :=
  C7_consumer_crossing (BoundaryState.mk StorageSection.Spare.toByte 0)
    (SyncBarrier.mk (some true) (some false) none) StorageSection.Spare rfl

/-! ## Layout (src/render/buffer/layout.rs) -/

/-- `Layout<const PARTS: usize>`: running cursor (`head`, `last`) plus
per-part offset/length/shader-binding arrays.  `usize`/`u32` values are
modelled as `Nat`; the `shader` sentinel `u32::MAX` is `2^32 - 1`. -/
structure Layout (PARTS : Nat) where
  head : Nat
  last : Nat
  offsets : List Nat
  lengths : List Nat
  shader : List Nat
deriving Repr, DecidableEq

/-- `Layout::new` (asserts `PARTS != 0`; `none` models the panic). -/
def Layout.new (PARTS : Nat) : Option (Layout PARTS) :=
  if PARTS ≠ 0 then
    some { head := 0, last := 0, offsets := List.replicate PARTS 0,
           lengths := List.replicate PARTS 0,
           shader := List.replicate PARTS (2 ^ 32 - 1) }
  else none

/-- `Layout::partition::<T>(count)` (layout.rs lines 28-42) with the
platform's shader-storage-offset `alignment` passed explicitly (the source
reads the global `GL_SHADER_STORAGE_BUFFER_OFFSET_ALIGNMENT`).  `sizeT` is
`size_of::<T>()`.  The offset is the source's bit trick
`(last + alignment - 1) & !(alignment - 1)` on 64-bit `usize`, where
`!(alignment - 1) = 2^64 - alignment` for a power-of-two alignment.  `none`
models the `head < PARTS` assertion panic. -/
def Layout.partition {PARTS : Nat} (l : Layout PARTS)
    (alignment sizeT count : Nat) : Option (Layout PARTS) :=
  if l.head < PARTS then
    let length := sizeT * count
    let offset := ((l.last + alignment - 1) % 2 ^ 64) &&& ((2 ^ 64 - alignment) % 2 ^ 64)
    some { l with offsets := l.offsets.set l.head offset,
                  lengths := l.lengths.set l.head length,
                  last := length + offset,
                  head := l.head + 1 }
  else none

/-- Modelled from the spec: `janus::align_to_gl_ssbo` lives in the external
`janus` crate, whose source is not part of this repository.  Spec section 4.B
says "`len()` returns cursor aligned up to the shader-storage alignment" and
section 6 says "section length rounded up to the same alignment", so it is
modelled as rounding up to the nearest multiple of the alignment. -/
def alignToGlSsbo (alignment n : Nat) : Nat :=
  ((n + alignment - 1) / alignment) * alignment

/-- `Layout::len` (layout.rs lines 78-80): the cursor aligned through
`janus::align_to_gl_ssbo`. -/
def Layout.len {PARTS : Nat} (l : Layout PARTS) (alignment : Nat) : Nat :=
  alignToGlSsbo alignment l.last

/-- The S3 scenario layout: PARTS = 4, alignment 16, partitions
`u32 * 4`, `f32 * 8`, `Vec4 * 2`, `Vec4 * 2` (element sizes 4, 4, 16, 16). -/
def layoutS3 : Option (Layout 4) :=
  (Layout.new 4).bind (fun l => l.partition 16 4 4) |>.bind
    (fun l => l.partition 16 4 8) |>.bind
    (fun l => l.partition 16 16 2) |>.bind
    (fun l => l.partition 16 16 2)

/-! ## GpuCommandQueue (src/render/command.rs lines 55-125) -/

/-- `GpuCommandQueue<C>`: the staged command vector, the atomic upload head,
and the fixed GPU-side buffer capacity. -/
structure CmdQueue (C : Type) where
  queue : List C
  uploadHead : Nat
  fixedBufferLen : Nat
deriving Repr, DecidableEq

/-- `GpuCommandQueue::new(buffer_len)`. -/
def CmdQueue.new (C : Type) (bufferLen : Nat) : CmdQueue C :=
  { queue := [], uploadHead := 0, fixedBufferLen := bufferLen }

/-- `GpuCommandQueue::clear`. -/
def CmdQueue.clear {C : Type} (q : CmdQueue C) : CmdQueue C :=
  { q with uploadHead := 0, queue := [] }

/-- `GpuCommandQueue::push`. -/
def CmdQueue.push {C : Type} (q : CmdQueue C) (command : C) : CmdQueue C :=
  { q with queue := q.queue ++ [command] }

/-- The body iterations of the `upload` copy loop, recursing on the number
of remaining iterations: each round does `buffer[i] = queue[j]; i += 1` and
advances `j`.  `none` models an out-of-bounds panic on either indexing. -/
def copyLoop {C : Type} (queue : List C) (buffer : List C)
    (j i : Nat) : Nat → Option (List C × Nat)
  | 0 => some (buffer, i)
  | fuel + 1 =>
    match queue[j]? with
    | none => none
    | some cmd =>
      if i < buffer.length then
        copyLoop queue (buffer.set i cmd) (j + 1) (i + 1) fuel
      else none

/-- The copy loop of `upload`: `for j in head..upload_size
{ buffer[i] = queue[j]; i += 1 }` runs exactly `upload_size - head`
iterations (none when `head ≥ upload_size`). -/
def copyRange {C : Type} (queue : List C) (buffer : List C)
    (j us i : Nat) : Option (List C × Nat) :=
  copyLoop queue buffer j i (us - j)

/-- `GpuCommandQueue::upload` (command.rs lines 103-124).  Returns the queue
with its updated upload head, the written buffer, and `Ok`/`Err(surplus)`.
`remaining = count - head` is `Nat` subtraction; the Rust `usize` subtraction
panics (debug) or wraps (release) when `head > count`, a state no claim's
hypotheses admit. -/
def CmdQueue.upload {C : Type} (q : CmdQueue C) (buffer : List C) :
    Option (CmdQueue C × List C × Except Nat Unit) :=
  let count := q.queue.length
  let head := q.uploadHead
  let remaining := count - head
  let uploadSize := min remaining q.fixedBufferLen
  match copyRange q.queue buffer head uploadSize 0 with
  | none => none
  | some (buffer', i) =>
    let newHead := head + i
    let exceed := count - newHead
    some ({ q with uploadHead := newHead }, buffer',
      if exceed ≠ 0 then Except.error exceed else Except.ok ())

theorem copyRange_of_le {C : Type} {queue buffer : List C} {j us i : Nat}
    (h : us ≤ j) : copyRange queue buffer j us i = some (buffer, i) := by
  unfold copyRange
  rw [Nat.sub_eq_zero_of_le h]
  rfl

theorem copyLoop_snd {C : Type} (queue : List C) :
    ∀ fuel (buffer : List C) (j i : Nat) (b' : List C) (i' : Nat),
      copyLoop queue buffer j i fuel = some (b', i') → i' = i + fuel := by
  intro fuel
  induction fuel with
  | zero =>
    intro buffer j i b' i' h
    have he := Option.some_inj.mp h
    have : i = i' := congrArg Prod.snd he
    omega
  | succ fuel ih =>
    intro buffer j i b' i' h
    unfold copyLoop at h
    split at h
    · exact absurd h (by simp)
    · rename_i cmd hq
      split at h
      · rename_i hi
        have := ih (buffer.set i cmd) (j + 1) (i + 1) b' i' h
        omega
      · exact absurd h (by simp)

theorem copyRange_snd {C : Type} {queue : List C} {buffer : List C}
    {j us i : Nat} {b' : List C} {i' : Nat}
    (h : copyRange queue buffer j us i = some (b', i')) :
    i' = i + (us - j) :=
  copyLoop_snd queue (us - j) buffer j i b' i' h

/-- C8 counterexample: under shader-storage alignment 16, the S3 layout's
`len()` is not 128 as the claim states. -/
theorem C8_layout_s3_counterexample :
    layoutS3.map (fun l => Layout.len l 16) ≠ some 128 := by decide

/-- C8 (amended): the S3 layout records offsets {0, 16, 48, 80} and lengths
{16, 32, 32, 32} as claimed, but its cursor 112 is already 16-aligned, so
`len()` — the cursor rounded up to the shader-storage alignment — is 112,
not 128. -/
theorem C8_layout_s3_amended :
    layoutS3.map (fun l => (l.offsets, l.lengths, Layout.len l 16)) =
      some ([0, 16, 48, 80], [16, 32, 32, 32], 112) := by decide

/-- C9 (confirmed): a queue of capacity 4 holding 6 pushed commands uploads
4 commands into a 4-slot buffer and returns `Err(2)`; after `clear`, the next
upload copies nothing and returns `Ok`. -/
theorem C9_capacity_overflow :
    ((((((CmdQueue.new Nat 4).push 1).push 2).push 3).push 4).push 5).push 6 =
      CmdQueue.mk [1, 2, 3, 4, 5, 6] 0 4 ∧
    (CmdQueue.mk ([1, 2, 3, 4, 5, 6] : List Nat) 0 4).upload [0, 0, 0, 0] =
      some (CmdQueue.mk [1, 2, 3, 4, 5, 6] 4 4, [1, 2, 3, 4], Except.error 2) ∧
    (CmdQueue.mk ([1, 2, 3, 4, 5, 6] : List Nat) 4 4).clear.upload [0, 0, 0, 0] =
      some (CmdQueue.mk [] 0 4, [0, 0, 0, 0], Except.ok ()) := by
  refine ⟨rfl, rfl, rfl⟩

/-- C10 (confirmed): once `upload` has returned `Err(n)`, a second `upload`
without an intervening `clear` (and without new pushes) copies nothing into
the destination buffer and returns `Err(n)` again, because the upload head
sits at or past the computed upload size (`min(remaining, capacity)`). -/
theorem C10_upload_stuck {C : Type} {q q1 : CmdQueue C} {buf buf1 : List C}
    {n : Nat} (buf2 : List C)
    (hhead : q.uploadHead ≤ q.queue.length)
    (h1 : q.upload buf = some (q1, buf1, Except.error n)) :
    q1.upload buf2 = some (q1, buf2, Except.error n) ∧
    min (q1.queue.length - q1.uploadHead) q1.fixedBufferLen ≤ q1.uploadHead := by
  unfold CmdQueue.upload at h1
  dsimp only at h1
  split at h1
  · exact absurd h1 (by simp)
  · rename_i pair buffer' i hcopy
    have hpair := Option.some_inj.mp h1
    have hq1 : { q with uploadHead := q.uploadHead + i } = q1 :=
      congrArg Prod.fst hpair
    have hrest := congrArg Prod.snd hpair
    have herr : (if q.queue.length - (q.uploadHead + i) ≠ 0 then
        Except.error (q.queue.length - (q.uploadHead + i)) else Except.ok ()) =
        Except.error n := congrArg Prod.snd hrest
    have hi : i = 0 + (min (q.queue.length - q.uploadHead) q.fixedBufferLen
        - q.uploadHead) :=
      copyRange_snd hcopy
    have hn : q.queue.length - (q.uploadHead + i) = n ∧
        q.queue.length - (q.uploadHead + i) ≠ 0 := by
      by_cases hz : q.queue.length - (q.uploadHead + i) ≠ 0
      · rw [if_pos hz] at herr
        exact ⟨by injection herr, hz⟩
      · rw [if_neg hz] at herr
        exact absurd herr (by simp)
    have hqueue : q1.queue = q.queue := by rw [← hq1]
    have hfix : q1.fixedBufferLen = q.fixedBufferLen := by rw [← hq1]
    have hhead1 : q1.uploadHead = q.uploadHead + i := by rw [← hq1]
    have hstuck : min (q1.queue.length - q1.uploadHead) q1.fixedBufferLen
        ≤ q1.uploadHead := by
      rw [hqueue, hfix, hhead1]
      omega
    refine ⟨?_, hstuck⟩
    unfold CmdQueue.upload
    dsimp only
    rw [copyRange_of_le hstuck]
    simp only [Nat.add_zero]
    have heta : { q1 with uploadHead := q1.uploadHead } = q1 := rfl
    rw [heta, if_pos (by rw [hqueue, hhead1]; omega)]
    have hfin : q1.queue.length - q1.uploadHead = n := by
      rw [hqueue, hhead1]
      omega
    rw [hfin]

/-- Witness for C10: the C9 scenario's first upload returned `Err(2)`; a
second upload into a fresh buffer copies nothing and returns `Err(2)`. -/
theorem C10_upload_stuck_witness :
    (CmdQueue.mk ([1, 2, 3, 4, 5, 6] : List Nat) 4 4).upload [9, 9, 9, 9] =
      some (CmdQueue.mk [1, 2, 3, 4, 5, 6] 4 4, [9, 9, 9, 9], Except.error 2) ∧
    min ((CmdQueue.mk ([1, 2, 3, 4, 5, 6] : List Nat) 4 4).queue.length -
        (CmdQueue.mk ([1, 2, 3, 4, 5, 6] : List Nat) 4 4).uploadHead)
      (CmdQueue.mk ([1, 2, 3, 4, 5, 6] : List Nat) 4 4).fixedBufferLen ≤
      (CmdQueue.mk ([1, 2, 3, 4, 5, 6] : List Nat) 4 4).uploadHead :=
 by
  have h1 : (CmdQueue.mk ([1, 2, 3, 4, 5, 6] : List Nat) 0 4).upload [0, 0, 0, 0] =
      some (CmdQueue.mk [1, 2, 3, 4, 5, 6] 4 4, [1, 2, 3, 4], Except.error 2) := rfl
  exact C10_upload_stuck [9, 9, 9, 9] (by decide) h1

end Ethel
